import Mathlib

/-!
Shallow embedding of the RSA key-generation and block-cipher program
`src/rsa-gen.py`, together with proofs about its operations.

Modelling conventions:

* Python arbitrary-precision non-negative integers (the spec's `BigInteger`)
  become `Nat`; modular arithmetic is explicit `% n`.
* `random.randint` / `random.getrandbits` draws become explicit streams
  (`ℕ → ℕ`) passed as parameters; unbounded `while` loops become fuelled
  structural recursion returning `Option`, so that every definition is
  executable by the kernel.
* Python `str` values become lists of Unicode scalar values (`List ℕ`);
  `bytes` values become lists of byte values (`List ℕ`, entries `< 256`).
* `raise ValueError(...)` becomes `Except RSAErr`, with one constructor per
  distinguishable error message of the source.
-/

set_option exponentiation.threshold 100000

set_option maxRecDepth 8000

deriving instance DecidableEq for Except

namespace RsaGen

/-- Error kinds corresponding to the distinguishable `ValueError` messages
raised by `cifrar_mensaje` and `descifrar_mensaje` in `src/rsa-gen.py`.
The source wraps every failure in a generic `ValueError` whose message string
retains the original cause; the constructors model those causes. -/
inductive RSAErr : Type
  /-- "Mensaje demasiado grande para la clave" (rsa-gen.py line 116). -/
  | blockTooLarge
  /-- Wrapped `ValueError` from `range(0, len, 0)` when the block size is zero
  (rsa-gen.py line 111 with `bloque_max = 0`). -/
  | rangeError
  /-- "¡Las llaves no coinciden! El módulo 'n' es diferente" (line 143). -/
  | keyMismatch
  /-- "Resultado vacío - probablemente las llaves son incorrectas" (line 152). -/
  | emptyResult
  /-- Wrapped lower-level failure during decryption, e.g. `pow(c, d, 0)`
  raising on a zero modulus (spec §7 `DecryptionFailed`). -/
  | decryptionFailed
  deriving DecidableEq

/-- Fuelled helper for `bitLen`; the fuel only needs to exceed the number of
binary digits, and `bitLenAux n n` always suffices. -/
def bitLenAux : ℕ → ℕ → ℕ
  | 0, _ => 0
  | _ + 1, 0 => 0
  | fuel + 1, n + 1 => bitLenAux fuel ((n + 1) / 2) + 1

/-- Python `int.bit_length()` for non-negative integers: the number of binary
digits, with `bitLen 0 = 0` (used as `n.bit_length()` on lines 108 and 148). -/
def bitLen (n : ℕ) : ℕ :=
  bitLenAux n n

/-- Decomposition loop of `es_primo` (lines 24-28): repeatedly halve `d`
while it is even, counting the factors of two removed into `s`.  The Python
loop needs no fuel because it is reached only with `d = n - 1 ≥ 3`; the fuel
argument (any value `≥ d`) makes the recursion structural. -/
def splitTwos : ℕ → ℕ → ℕ → ℕ × ℕ
  | 0, d, s => (d, s)
  | fuel + 1, d, s => if d % 2 = 0 then splitTwos fuel (d / 2) (s + 1) else (d, s)

/-- Inner squaring loop of one Miller-Rabin round (lines 34-39): square `x`
modulo `n` up to `s - 1` times; succeed as soon as `x = n - 1`, otherwise
report failure (the `for ... else: return False` of the source). -/
def squareLoop (n : ℕ) : ℕ → ℕ → Bool
  | 0, _ => false
  | k + 1, x =>
    let x2 := x ^ 2 % n
    if x2 = n - 1 then true else squareLoop n k x2

/-- One Miller-Rabin round of `es_primo` (lines 30-39) with witness `a`:
compute `x = a ^ d % n`; the round passes if `x ∈ {1, n - 1}` or some of the
`s - 1` subsequent squarings reaches `n - 1`. -/
def mrRound (n d s a : ℕ) : Bool :=
  let x := a ^ d % n
  if x = 1 ∨ x = n - 1 then true else squareLoop n (s - 1) x

/-- The `for _ in range(k)` loop of `es_primo` (line 29), drawing the round
witnesses from the stream `w` (modelling `random.randint(2, n - 2)`). -/
def mrLoop (n d s : ℕ) (w : ℕ → ℕ) : ℕ → Bool
  | 0 => true
  | k + 1 => mrRound n d s (w k) && mrLoop n d s w k

/-- Miller-Rabin primality test `es_primo(n, k)` (lines 6-40).  The Python
function draws `k` random witnesses; here they are supplied by the stream
`w`.  Negative Python inputs fall under the `n <= 1` branch, so `Nat`
faithfully models the reachable behaviour. -/
def es_primo (n : ℕ) (w : ℕ → ℕ) (k : ℕ) : Bool :=
  if n ≤ 1 then false
  else if n ≤ 3 then true
  else
    let ds := splitTwos (n - 1) (n - 1) 0
    mrLoop n ds.1 ds.2 w k

/-- Python's default argument `k=5` of `es_primo` (line 6): the call shape
`es_primo(n)` used by `generar_primo` (line 61) and the menu (line 255). -/
def es_primo_default (n : ℕ) (w : ℕ → ℕ) : Bool :=
  es_primo n w 5

/-- Candidate post-processing of `generar_primo` (line 60):
`p |= (1 << bits - 1) | 1` forces the top and bottom bits of the random
draw `r`. -/
def forceBits (bits r : ℕ) : ℕ :=
  r ||| ((1 <<< (bits - 1)) ||| 1)

/-- Prime generation loop `generar_primo(bits)` (lines 42-62).  `rand i`
models the draw `random.getrandbits(bits)` of attempt `i` and `wit i` the
witness stream consumed by that attempt's `es_primo(p)` call; the fuel bounds
the number of attempts (the Python loop is unbounded). -/
def generar_primo (bits : ℕ) (rand : ℕ → ℕ) (wit : ℕ → ℕ → ℕ) : ℕ → Option ℕ
  | 0 => none
  | fuel + 1 =>
    let p := forceBits bits (rand fuel)
    if es_primo_default p (wit fuel) then some p else generar_primo bits rand wit fuel

/-- Fuelled extended Euclid: for `b ≤ fuel`, `xgcdFuel fuel a b = (x, y)` with
`a * x + b * y = gcd a b`.  Models the computation behind Python's
`pow(e, -1, phi)` (line 87), which the spec describes as the extended
Euclidean algorithm. -/
def xgcdFuel : ℕ → ℕ → ℕ → ℤ × ℤ
  | 0, _, _ => (1, 0)
  | fuel + 1, a, b =>
    if b = 0 then (1, 0)
    else
      let p := xgcdFuel fuel b (a % b)
      (p.2, p.1 - (a / b : ℕ) * p.2)

/-- Modular inverse `pow(a, -1, m)` (line 87): the canonical representative in
`[0, m)` of the inverse of `a` modulo `m`, defined for `gcd a m = 1`, `m > 0`
(the only way the source reaches it). -/
def modInv (a m : ℕ) : ℕ :=
  ((xgcdFuel (m + 1) (a % m) m).1 % (m : ℤ)).toNat

/-- Public-exponent loop of `generar_claves` (lines 84-86): start from
`e = 65537` and redraw `e = random.randint(2, phi - 1)` (stream `es`) while
`gcd(e, phi) ≠ 1`.  The fuel bounds the redraws. -/
def pickE (phi : ℕ) (es : ℕ → ℕ) : ℕ → ℕ → Option ℕ
  | 0, e => if Nat.gcd e phi = 1 then some e else none
  | fuel + 1, e => if Nat.gcd e phi = 1 then some e else pickE phi es fuel (es fuel)

/-- RSA key-pair generation `generar_claves(bits)` (lines 64-88): two primes of
`bits // 2` bits, `n = p * q`, `phi = (p - 1) * (q - 1)`, public exponent from
`pickE`, private exponent `d = pow(e, -1, phi)`; returns `((e, n), (d, n))`.
The streams `r1, w1` and `r2, w2` model the random draws consumed by the two
`generar_primo` calls, `es` the exponent redraws. -/
def generar_claves (bits : ℕ) (r1 r2 : ℕ → ℕ) (w1 w2 : ℕ → ℕ → ℕ)
    (es : ℕ → ℕ) (fuel : ℕ) : Option ((ℕ × ℕ) × (ℕ × ℕ)) :=
  match generar_primo (bits / 2) r1 w1 fuel, generar_primo (bits / 2) r2 w2 fuel with
  | some p, some q =>
    let n := p * q
    let phi := (p - 1) * (q - 1)
    match pickE phi es fuel 65537 with
    | some e => some ((e, n), (modInv e phi, n))
    | none => none
  | _, _ => none

/-- Big-endian unsigned interpretation `int.from_bytes(bloque, 'big')`
(line 114). -/
def bytesToInt (b : List ℕ) : ℕ :=
  b.foldl (fun acc x => acc * 256 + x) 0

/-- Fixed-width big-endian byte string of `m`, `m.to_bytes(len, 'big')`:
`len` bytes, most significant first. -/
def toBytesBE : ℕ → ℕ → List ℕ
  | _, 0 => []
  | m, len + 1 => toBytesBE (m / 256) len ++ [m % 256]

/-- Minimal big-endian byte string
`m.to_bytes((m.bit_length() + 7) // 8, 'big')` (line 148): the width is the
least number of bytes holding `m`, so `decodeBlock 0 = []` and leading zero
bytes are never produced. -/
def decodeBlock (m : ℕ) : List ℕ :=
  toBytesBE m ((bitLen m + 7) / 8)

/-- UTF-8 encoding of one Unicode scalar value (RFC 3629), as performed
bytewise by Python's `str.encode('utf-8')` (line 110).  Faithful for scalar
values (`c < 0x110000`, not a surrogate); Python raises on lone surrogates,
which the theorems exclude by hypothesis. -/
def utf8EncodeChar (c : ℕ) : List ℕ :=
  if c < 0x80 then [c]
  else if c < 0x800 then [0xC0 + c / 64, 0x80 + c % 64]
  else if c < 0x10000 then [0xE0 + c / 4096, 0x80 + c / 64 % 64, 0x80 + c % 64]
  else [0xF0 + c / 262144, 0x80 + c / 4096 % 64, 0x80 + c / 64 % 64, 0x80 + c % 64]

/-- UTF-8 encoding of a whole message, `mensaje.encode('utf-8')` (line 110). -/
def utf8EncodeList : List ℕ → List ℕ
  | [] => []
  | c :: cs => utf8EncodeChar c ++ utf8EncodeList cs

/-- Block size computed by `cifrar_mensaje` (line 108):
`bloque_max = (n.bit_length() // 8) - 1`, as a Python integer (it is `-1`
when `n.bit_length() < 8`, which is why the result is `ℤ`). -/
def bloque_max (n : ℕ) : ℤ :=
  (bitLen n : ℤ) / 8 - 1

/-- Chunking a byte string into consecutive blocks of `size` bytes (`size ≥ 1`;
the fuel needs only to be `≥ msg.length`). -/
def chunksExact : ℕ → ℕ → List ℕ → List (List ℕ)
  | _, _, [] => []
  | 0, _, _ :: _ => []
  | fuel + 1, size, x :: xs => (x :: xs).take size :: chunksExact fuel size ((x :: xs).drop size)

/-- Block splitting `[bytes_msg[i:i+bloque_max] for i in range(0, len(bytes_msg), bloque_max)]`
(line 111) for an arbitrary Python integer step: `range` raises `ValueError`
on step `0` (modelled as `none`); a negative step from `0` yields no indices
at all, hence no blocks; a positive step chunks the message in order. -/
def splitBloques (msg : List ℕ) (step : ℤ) : Option (List (List ℕ)) :=
  if step = 0 then none
  else if step < 0 then some []
  else some (chunksExact msg.length step.toNat msg)

/-- Per-block encryption loop of `cifrar_mensaje` (lines 113-118): encode the
block, fail with `blockTooLarge` if `m ≥ n` (line 115-116), otherwise append
`c = pow(m, e, n)`; the first offending block aborts the whole computation. -/
def cifrarBloques (e n : ℕ) : List (List ℕ) → Except RSAErr (List ℕ)
  | [] => Except.ok []
  | b :: bs =>
    let m := bytesToInt b
    if n ≤ m then Except.error RSAErr.blockTooLarge
    else
      match cifrarBloques e n bs with
      | Except.ok rest => Except.ok (m ^ e % n :: rest)
      | Except.error err => Except.error err

/-- Encryption `cifrar_mensaje(mensaje, clave_publica)` (lines 90-121):
UTF-8-encode the message, split it into blocks of `bloque_max` bytes, and
encrypt each block with `c = m ^ e % n`. -/
def cifrar_mensaje (mensaje : List ℕ) (clave_publica : ℕ × ℕ) : Except RSAErr (List ℕ) :=
  let e := clave_publica.1
  let n := clave_publica.2
  let bytesMsg := utf8EncodeList mensaje
  match splitBloques bytesMsg (bloque_max n) with
  | none => Except.error RSAErr.rangeError
  | some bloques => cifrarBloques e n bloques

/-- Continuation-byte test of the UTF-8 decoder: `0x80 ≤ b < 0xC0`. -/
def isCont (b : ℕ) : Bool :=
  decide (0x80 ≤ b ∧ b < 0xC0)

/-- Admissible second byte after the three-byte leads `0xE0` (no overlong
forms) and `0xED` (no surrogates); plain continuation otherwise. -/
def cont3 (b b1 : ℕ) : Bool :=
  if b = 0xE0 then decide (0xA0 ≤ b1 ∧ b1 < 0xC0)
  else if b = 0xED then decide (0x80 ≤ b1 ∧ b1 < 0xA0)
  else isCont b1

/-- Admissible second byte after the four-byte leads `0xF0` (no overlong
forms) and `0xF4` (scalar values stop at `0x10FFFF`); plain continuation
otherwise. -/
def cont4 (b b1 : ℕ) : Bool :=
  if b = 0xF0 then decide (0x90 ≤ b1 ∧ b1 < 0xC0)
  else if b = 0xF4 then decide (0x80 ≤ b1 ∧ b1 < 0x90)
  else isCont b1

/-- UTF-8 decoding with CPython's `errors='replace'` policy (line 150): each
maximal invalid subpart is replaced by one `U+FFFD`, decoding resumes at the
first unconsumed byte.  The fuel (any value `≥` the list length) makes the
recursion structural. -/
def utf8DecodeAux : ℕ → List ℕ → List ℕ
  | 0, _ => []
  | _ + 1, [] => []
  | f + 1, b :: rest =>
    if b < 0x80 then b :: utf8DecodeAux f rest
    else if b < 0xC2 then 0xFFFD :: utf8DecodeAux f rest
    else if b < 0xE0 then
      match rest with
      | [] => [0xFFFD]
      | b1 :: rest1 =>
        if isCont b1 then ((b - 0xC0) * 64 + (b1 - 0x80)) :: utf8DecodeAux f rest1
        else 0xFFFD :: utf8DecodeAux f rest
    else if b < 0xF0 then
      match rest with
      | [] => [0xFFFD]
      | b1 :: rest1 =>
        if cont3 b b1 then
          match rest1 with
          | [] => [0xFFFD]
          | b2 :: rest2 =>
            if isCont b2 then
              ((b - 0xE0) * 4096 + (b1 - 0x80) * 64 + (b2 - 0x80)) :: utf8DecodeAux f rest2
            else 0xFFFD :: utf8DecodeAux f rest1
        else 0xFFFD :: utf8DecodeAux f rest
    else if b < 0xF5 then
      match rest with
      | [] => [0xFFFD]
      | b1 :: rest1 =>
        if cont4 b b1 then
          match rest1 with
          | [] => [0xFFFD]
          | b2 :: rest2 =>
            if isCont b2 then
              match rest2 with
              | [] => [0xFFFD]
              | b3 :: rest3 =>
                if isCont b3 then
                  ((b - 0xF0) * 262144 + (b1 - 0x80) * 4096 + (b2 - 0x80) * 64 + (b3 - 0x80))
                    :: utf8DecodeAux f rest3
                else 0xFFFD :: utf8DecodeAux f rest2
            else 0xFFFD :: utf8DecodeAux f rest1
        else 0xFFFD :: utf8DecodeAux f rest
    else 0xFFFD :: utf8DecodeAux f rest

/-- Lossy UTF-8 decoding `b''.join(bloques).decode('utf-8', errors='replace')`
(line 150), producing the decoded text as Unicode scalar values. -/
def utf8DecodeReplace (l : List ℕ) : List ℕ :=
  utf8DecodeAux l.length l

/-- Code points stripped by Python's `str.strip()` with no arguments (the
whitespace set of `str.isspace`). -/
def pySpaceList : List ℕ :=
  [0x09, 0x0A, 0x0B, 0x0C, 0x0D, 0x1C, 0x1D, 0x1E, 0x1F, 0x20, 0x85, 0xA0,
   0x1680, 0x2000, 0x2001, 0x2002, 0x2003, 0x2004, 0x2005, 0x2006, 0x2007,
   0x2008, 0x2009, 0x200A, 0x2028, 0x2029, 0x202F, 0x205F, 0x3000]

/-- Whitespace test for one code point, per Python `str.strip()`. -/
def isPySpace (c : ℕ) : Bool :=
  pySpaceList.contains c

/-- Concatenation `b''.join(bloques)` (line 150). -/
def joinBytes : List (List ℕ) → List ℕ
  | [] => []
  | b :: bs => b ++ joinBytes bs

/-- Body of `descifrar_mensaje` after the key check (lines 144-153): decrypt
each block with `m = pow(c, d, n)`, render it as its minimal big-endian byte
string, join, decode as lossy UTF-8, and fail with `emptyResult` when the
decoded text strips to nothing (`if not mensaje.strip()`, line 151).  Python's
`pow(c, d, 0)` raises on the first block when `n = 0`, modelled by the
`decryptionFailed` guard. -/
def descifrarCuerpo (cifrados : List ℕ) (d n : ℕ) : Except RSAErr (List ℕ) :=
  if n = 0 ∧ cifrados ≠ [] then Except.error RSAErr.decryptionFailed
  else
    let bloques := cifrados.map fun c => decodeBlock (c ^ d % n)
    let mensaje := utf8DecodeReplace (joinBytes bloques)
    if mensaje.all isPySpace then Except.error RSAErr.emptyResult
    else Except.ok mensaje

/-- Decryption `descifrar_mensaje(cifrados, clave_privada, clave_publica_original)`
(lines 123-155).  When a public key is supplied (`some`), the moduli are
compared first (lines 140-143) and mismatch aborts before any block is
touched. -/
def descifrar_mensaje (cifrados : List ℕ) (clave_privada : ℕ × ℕ)
    (clave_publica_original : Option (ℕ × ℕ)) : Except RSAErr (List ℕ) :=
  let d := clave_privada.1
  let n := clave_privada.2
  match clave_publica_original with
  | some pub =>
    if n ≠ pub.2 then Except.error RSAErr.keyMismatch
    else descifrarCuerpo cifrados d n
  | none => descifrarCuerpo cifrados d n

/-- Unicode scalar values: exactly the code points a Python `str` can hold
that `str.encode('utf-8')` accepts (lone surrogates raise instead). -/
abbrev validScalar (c : ℕ) : Prop :=
  c < 1114112 ∧ ¬(55296 ≤ c ∧ c ≤ 57343)

/-! ## Bit length -/

theorem bitLenAux_zero : ∀ fuel, bitLenAux fuel 0 = 0
  | 0 => rfl
  | _ + 1 => rfl

theorem bitLenAux_spec :
    ∀ fuel n, 0 < n → n ≤ fuel →
      2 ^ (bitLenAux fuel n - 1) ≤ n ∧ n < 2 ^ bitLenAux fuel n ∧ 1 ≤ bitLenAux fuel n := by
  intro fuel
  induction fuel with
  | zero => intro n h1 h2; omega
  | succ fuel ih =>
    intro n h1 h2
    obtain ⟨m, rfl⟩ : ∃ m, n = m + 1 := ⟨n - 1, by omega⟩
    show 2 ^ (bitLenAux fuel ((m + 1) / 2) + 1 - 1) ≤ m + 1 ∧
      m + 1 < 2 ^ (bitLenAux fuel ((m + 1) / 2) + 1) ∧ 1 ≤ bitLenAux fuel ((m + 1) / 2) + 1
    rcases Nat.eq_zero_or_pos ((m + 1) / 2) with hz | hpos
    · have hm : m = 0 := by omega
      subst hm
      rw [hz, bitLenAux_zero]
      omega
    · obtain ⟨h1', h2', h3'⟩ := ih ((m + 1) / 2) hpos (by omega)
      set a := bitLenAux fuel ((m + 1) / 2) with ha
      have hpow : 2 ^ a = 2 * 2 ^ (a - 1) := by
        conv_lhs => rw [show a = (a - 1) + 1 by omega]
        rw [pow_succ]
        ring
      constructor
      · have : 2 ^ (a + 1 - 1) = 2 * 2 ^ (a - 1) := by
          rw [Nat.add_sub_cancel, hpow]
        omega
      · have : 2 ^ (a + 1) = 2 * 2 ^ a := by rw [pow_succ]; ring
        omega

/-- Characterisation of `bitLen` on positive inputs. -/
theorem bitLen_spec (n : ℕ) (h : 0 < n) :
    2 ^ (bitLen n - 1) ≤ n ∧ n < 2 ^ bitLen n ∧ 1 ≤ bitLen n :=
  bitLenAux_spec n n h le_rfl

/-- Python's `bit_length` is at most `k` exactly when the value is below
`2 ^ k`. -/
theorem bitLen_le_iff (n k : ℕ) : bitLen n ≤ k ↔ n < 2 ^ k := by
  rcases Nat.eq_zero_or_pos n with rfl | hn
  · simp [bitLen, bitLenAux_zero, Nat.pos_pow_of_pos, Nat.two_pow_pos]
  · obtain ⟨h1, h2, h3⟩ := bitLen_spec n hn
    constructor
    · intro hk
      exact lt_of_lt_of_le h2 (Nat.pow_le_pow_right (by omega) hk)
    · intro hk
      by_contra hlt
      have : 2 ^ k ≤ 2 ^ (bitLen n - 1) := Nat.pow_le_pow_right (by omega) (by omega)
      omega

/-- Uniqueness: a value between consecutive powers of two pins `bitLen`. -/
theorem bitLen_eq_of_bounds (n k : ℕ) (h1 : 2 ^ k ≤ n) (h2 : n < 2 ^ (k + 1)) :
    bitLen n = k + 1 := by
  have hup : bitLen n ≤ k + 1 := (bitLen_le_iff n (k + 1)).2 h2
  have hlow : ¬ bitLen n ≤ k := by
    rw [bitLen_le_iff]
    omega
  omega

/-! ## Miller-Rabin: structural lemmas -/

/-- The decomposition loop returns an odd part and the exact power of two. -/
theorem splitTwos_spec :
    ∀ fuel d s, 0 < d → d ≤ fuel →
      (splitTwos fuel d s).1 % 2 = 1 ∧
        d * 2 ^ s = (splitTwos fuel d s).1 * 2 ^ (splitTwos fuel d s).2 := by
  intro fuel
  induction fuel with
  | zero => intro d s h1 h2; omega
  | succ fuel ih =>
    intro d s h1 h2
    by_cases hd : d % 2 = 0
    · have hrec : splitTwos (fuel + 1) d s = splitTwos fuel (d / 2) (s + 1) := by
        simp [splitTwos, hd]
      obtain ⟨ha, hb⟩ := ih (d / 2) (s + 1) (by omega) (by omega)
      refine ⟨by rw [hrec]; exact ha, ?_⟩
      rw [hrec, ← hb, pow_succ]
      have : d = d / 2 * 2 := by omega
      conv_lhs => rw [this]
      ring
    · have hrec : splitTwos (fuel + 1) d s = (d, s) := by
        simp [splitTwos, hd]
      rw [hrec]
      exact ⟨by omega, rfl⟩

/-- If some later squaring of `x` reaches `n - 1` within the iteration budget,
the squaring loop succeeds. -/
theorem squareLoop_of_exists (n : ℕ) :
    ∀ k x, (∃ j, 1 ≤ j ∧ j ≤ k ∧ x ^ 2 ^ j % n = n - 1) → squareLoop n k x = true := by
  intro k
  induction k with
  | zero => intro x ⟨j, h1, h2, _⟩; omega
  | succ k ih =>
    intro x ⟨j, hj1, hjk, hjval⟩
    show (if x ^ 2 % n = n - 1 then true else squareLoop n k (x ^ 2 % n)) = true
    by_cases hx2 : x ^ 2 % n = n - 1
    · simp [hx2]
    · have hj2 : 2 ≤ j := by
        rcases Nat.lt_or_ge j 2 with h | h
        · interval_cases j
          · exact absurd hjval (by simpa using hx2)
        · exact h
      simp only [hx2, if_false]
      apply ih
      refine ⟨j - 1, by omega, by omega, ?_⟩
      have hpow : (x ^ 2 % n) ^ 2 ^ (j - 1) % n = (x ^ 2) ^ 2 ^ (j - 1) % n := by
        rw [Nat.pow_mod]
        rw [Nat.mod_mod_of_dvd _ dvd_rfl]
        rw [← Nat.pow_mod]
      rw [hpow, ← pow_mul]
      have : 2 * 2 ^ (j - 1) = 2 ^ j := by
        conv_rhs => rw [show j = (j - 1) + 1 by omega]
        rw [pow_succ]
        ring
      rw [this]
      exact hjval

/-- If every value reachable in the squaring loop shares a divisor `g ≥ 2`
with `n`, the loop can never hit `n - 1` and fails. -/
theorem squareLoop_false_of_dvd {n g : ℕ} (hg : 2 ≤ g) (hgn : g ∣ n) (hn : 2 ≤ n) :
    ∀ k x, g ∣ x → squareLoop n k x = false := by
  intro k
  induction k with
  | zero => intro x _; rfl
  | succ k ih =>
    intro x hx
    have hx2 : g ∣ x ^ 2 % n := (Nat.dvd_mod_iff hgn).2 (dvd_pow hx (by omega))
    have hne : x ^ 2 % n ≠ n - 1 := by
      intro heq
      have h1 : g ∣ n - 1 := heq ▸ hx2
      have h2 : g ∣ n - (n - 1) := Nat.dvd_sub' hgn h1
      have h3 : n - (n - 1) = 1 := by omega
      rw [h3] at h2
      exact absurd (Nat.le_of_dvd one_pos h2) (by omega)
    show (if x ^ 2 % n = n - 1 then true else squareLoop n k (x ^ 2 % n)) = false
    simp only [hne, if_false]
    exact ih _ hx2

/-- A witness sharing a factor `g ≥ 2` with `n` always detects compositeness:
its round fails. -/
theorem mrRound_false_of_dvd {n g d s a : ℕ} (hg : 2 ≤ g) (hga : g ∣ a) (hgn : g ∣ n)
    (hd : 0 < d) (hn : 2 ≤ n) : mrRound n d s a = false := by
  have hx : g ∣ a ^ d % n := (Nat.dvd_mod_iff hgn).2 (dvd_pow hga (by omega))
  have hne1 : a ^ d % n ≠ 1 := by
    intro heq
    rw [heq] at hx
    exact absurd (Nat.le_of_dvd one_pos hx) (by omega)
  have hne2 : a ^ d % n ≠ n - 1 := by
    intro heq
    have h1 : g ∣ n - 1 := heq ▸ hx
    have h2 : g ∣ n - (n - 1) := Nat.dvd_sub' hgn h1
    have h3 : n - (n - 1) = 1 := by omega
    rw [h3] at h2
    exact absurd (Nat.le_of_dvd one_pos h2) (by omega)
  show (if a ^ d % n = 1 ∨ a ^ d % n = n - 1 then true else squareLoop n (s - 1) (a ^ d % n))
      = false
  have : ¬(a ^ d % n = 1 ∨ a ^ d % n = n - 1) := by
    rintro (h | h)
    exacts [hne1 h, hne2 h]
  simp only [this, if_false]
  exact squareLoop_false_of_dvd hg hgn hn _ _ hx

/-! ## Miller-Rabin: soundness on primes -/

/-- In the field `ZMod p`, an element whose `2 ^ s`-th power is `1` is either
`1` or reaches `-1` along the squaring chain. -/
theorem pow_two_pow_eq_one_cases {p : ℕ} [Fact p.Prime] (β : ZMod p) :
    ∀ s : ℕ, β ^ 2 ^ s = 1 → β = 1 ∨ ∃ i, i < s ∧ β ^ 2 ^ i = -1 := by
  intro s
  induction s with
  | zero => intro h; left; simpa using h
  | succ s ih =>
    intro h
    have h2 : (β ^ 2 ^ s) ^ 2 = 1 := by
      rw [← pow_mul, ← pow_succ]
      exact h
    rcases sq_eq_one_iff.mp h2 with h1 | hm1
    · rcases ih h1 with h | ⟨i, his, hi⟩
      · exact Or.inl h
      · exact Or.inr ⟨i, by omega, hi⟩
    · exact Or.inr ⟨s, by omega, hm1⟩

/-- Bridge: two naturals below `p` are equal iff their casts into `ZMod p`
agree. -/
theorem nat_eq_of_zmod_eq {p x y : ℕ} (hx : x < p) (hy : y < p)
    (h : (x : ZMod p) = (y : ZMod p)) : x = y := by
  have := congrArg ZMod.val h
  rwa [ZMod.val_cast_of_lt hx, ZMod.val_cast_of_lt hy] at this

/-- Every witness not divisible by the odd prime `p > 3` passes its
Miller-Rabin round: the test has no false negatives. -/
theorem mrRound_prime {p : ℕ} (hp : p.Prime) (hp3 : 3 < p) {d s : ℕ}
    (hds : p - 1 = d * 2 ^ s) {a : ℕ} (ha : ¬ p ∣ a) : mrRound p d s a = true := by
  haveI : Fact p.Prime := ⟨hp⟩
  have hα : (a : ZMod p) ≠ 0 := by
    rw [Ne, ZMod.natCast_zmod_eq_zero_iff_dvd]
    exact ha
  have hfermat : (a : ZMod p) ^ (p - 1) = 1 := ZMod.pow_card_sub_one_eq_one hα
  have hβ : ((a : ZMod p) ^ d) ^ 2 ^ s = 1 := by
    rw [← pow_mul, ← hds]
    exact hfermat
  have hcast : ∀ j : ℕ, ((a ^ d % p : ℕ) ^ 2 ^ j % p : ℕ) = (a ^ (d * 2 ^ j)) % p := by
    intro j
    conv_lhs => rw [Nat.pow_mod, Nat.mod_mod_of_dvd _ dvd_rfl, ← Nat.pow_mod, ← pow_mul]
  have hx0 : a ^ d % p < p := Nat.mod_lt _ (by omega)
  have hcast0 : ((a ^ d % p : ℕ) : ZMod p) = (a : ZMod p) ^ d := by
    rw [ZMod.natCast_mod, Nat.cast_pow]
  have hcastp1 : ((p - 1 : ℕ) : ZMod p) = -1 := by
    rw [Nat.cast_sub (by omega : 1 ≤ p), ZMod.natCast_self, Nat.cast_one, zero_sub]
  rcases pow_two_pow_eq_one_cases ((a : ZMod p) ^ d) s hβ with h1 | ⟨i, his, hi⟩
  · have : a ^ d % p = 1 := by
      apply nat_eq_of_zmod_eq hx0 (by omega)
      rw [hcast0, h1, Nat.cast_one]
    show (if a ^ d % p = 1 ∨ a ^ d % p = p - 1 then true else squareLoop p (s - 1) (a ^ d % p))
        = true
    simp [this]
  · by_cases hfirst : a ^ d % p = 1 ∨ a ^ d % p = p - 1
    · show (if a ^ d % p = 1 ∨ a ^ d % p = p - 1 then true
          else squareLoop p (s - 1) (a ^ d % p)) = true
      simp [hfirst]
    · have hi0 : i ≠ 0 := by
        intro h0
        subst h0
        apply hfirst
        right
        apply nat_eq_of_zmod_eq hx0 (by omega)
        rw [hcast0, hcastp1]
        simpa using hi
      show (if a ^ d % p = 1 ∨ a ^ d % p = p - 1 then true
          else squareLoop p (s - 1) (a ^ d % p)) = true
      simp only [hfirst, if_false]
      apply squareLoop_of_exists
      refine ⟨i, by omega, by omega, ?_⟩
      apply nat_eq_of_zmod_eq (Nat.mod_lt _ (by omega)) (by omega)
      rw [hcast]
      rw [ZMod.natCast_mod, Nat.cast_pow, pow_mul, hcastp1, hi]

/-- The round loop succeeds when every consumed witness round succeeds. -/
theorem mrLoop_true (n d s : ℕ) (w : ℕ → ℕ) :
    ∀ k, (∀ j, j < k → mrRound n d s (w j) = true) → mrLoop n d s w k = true := by
  intro k
  induction k with
  | zero => intro _; rfl
  | succ k ih =>
    intro h
    show (mrRound n d s (w k) && mrLoop n d s w k) = true
    rw [h k (by omega), ih (fun j hj => h j (by omega))]
    rfl

/-- Miller-Rabin soundness on primes: for a prime input and any in-range
witnesses, `es_primo` answers `true`. -/
theorem es_primo_true_of_prime {p : ℕ} (hp : p.Prime) (w : ℕ → ℕ) (k : ℕ)
    (hw : ∀ j, j < k → ¬ p ∣ w j) : es_primo p w k = true := by
  have hp2 : 2 ≤ p := hp.two_le
  by_cases hp3 : p ≤ 3
  · unfold es_primo
    have : ¬ p ≤ 1 := by omega
    simp [this, hp3]
  · unfold es_primo
    have h1 : ¬ p ≤ 1 := by omega
    have h3 : ¬ p ≤ 3 := hp3
    simp only [h1, if_false, h3]
    obtain ⟨hodd, heq⟩ := splitTwos_spec (p - 1) (p - 1) 0 (by omega) le_rfl
    rw [pow_zero, mul_one] at heq
    apply mrLoop_true
    intro j hj
    exact mrRound_prime hp (by omega) heq (hw j hj)

/-- Miller-Rabin completeness witness on composites: the least prime factor,
used as every round's witness, drives `es_primo` to `false`. -/
theorem es_primo_false_of_composite {n : ℕ} (hn : 4 ≤ n) :
    ∀ k, 1 ≤ k → es_primo n (fun _ => n.minFac) k = false := by
  intro k hk
  have hfac : n.minFac ∣ n := Nat.minFac_dvd n
  have hf2 : 2 ≤ n.minFac := (Nat.minFac_prime (by omega : n ≠ 1)).two_le
  unfold es_primo
  have h1 : ¬ n ≤ 1 := by omega
  have h3 : ¬ n ≤ 3 := by omega
  simp only [h1, if_false, h3]
  obtain ⟨hodd, heq⟩ := splitTwos_spec (n - 1) (n - 1) 0 (by omega) le_rfl
  obtain ⟨k', rfl⟩ : ∃ k', k = k' + 1 := ⟨k - 1, by omega⟩
  show (mrRound n (splitTwos (n - 1) (n - 1) 0).1 (splitTwos (n - 1) (n - 1) 0).2 n.minFac &&
      mrLoop n _ _ _ k') = false
  rw [mrRound_false_of_dvd hf2 dvd_rfl hfac (by omega) (by omega)]
  rfl

/-! ## Prime generation -/

theorem es_primo_ge_two {n : ℕ} {w : ℕ → ℕ} {k : ℕ} (h : es_primo n w k = true) : 2 ≤ n := by
  by_contra hn
  have h1 : n ≤ 1 := by omega
  simp [es_primo, h1] at h

/-- The candidate always has its bottom bit forced: it is odd. -/
theorem forceBits_odd (bits r : ℕ) : forceBits bits r % 2 = 1 := by
  have h : (forceBits bits r).testBit 0 = true := by
    unfold forceBits
    rw [Nat.testBit_lor, Nat.testBit_lor]
    have h1 : (1 : ℕ).testBit 0 = true := by decide
    simp [h1]
  rw [Nat.testBit_zero] at h
  exact of_decide_eq_true h

/-- The candidate always has its top bit forced. -/
theorem forceBits_ge (bits r : ℕ) : 2 ^ (bits - 1) ≤ forceBits bits r := by
  apply Nat.testBit_implies_ge
  unfold forceBits
  rw [Nat.testBit_lor, Nat.testBit_lor, Nat.shiftLeft_eq, one_mul]
  simp [Nat.testBit_two_pow_self]

/-- The forcing mask stays inside the requested width. -/
theorem forceBits_lt (bits r : ℕ) (hb : 1 ≤ bits) (hr : r < 2 ^ bits) :
    forceBits bits r < 2 ^ bits := by
  unfold forceBits
  apply Nat.or_lt_two_pow hr
  apply Nat.or_lt_two_pow
  · rw [Nat.shiftLeft_eq, one_mul]
    exact Nat.pow_lt_pow_right (by omega) (by omega)
  · have h2 : (2 : ℕ) ^ 1 ≤ 2 ^ bits := Nat.pow_le_pow_right (by omega) hb
    omega

/-- A forced candidate of a width-bounded draw has exactly `bits` bits. -/
theorem forceBits_bitLen (bits r : ℕ) (hb : 1 ≤ bits) (hr : r < 2 ^ bits) :
    bitLen (forceBits bits r) = bits := by
  have h1 := forceBits_ge bits r
  have h2 := forceBits_lt bits r hb hr
  have h3 := bitLen_eq_of_bounds (forceBits bits r) (bits - 1) h1
    (by rw [show bits - 1 + 1 = bits by omega]; exact h2)
  omega

/-- Inversion for the generation loop: a returned value comes from some
attempt whose candidate was accepted by `es_primo`. -/
theorem generar_primo_spec (bits : ℕ) (rand : ℕ → ℕ) (wit : ℕ → ℕ → ℕ) :
    ∀ fuel p, generar_primo bits rand wit fuel = some p →
      ∃ i, i < fuel ∧ p = forceBits bits (rand i) ∧ es_primo_default p (wit i) = true := by
  intro fuel
  induction fuel with
  | zero => intro p h; exact absurd h (by simp [generar_primo])
  | succ fuel ih =>
    intro p h
    unfold generar_primo at h
    have h' : (if es_primo_default (forceBits bits (rand fuel)) (wit fuel) = true
        then some (forceBits bits (rand fuel))
        else generar_primo bits rand wit fuel) = some p := h
    split at h'
    · have hp : p = forceBits bits (rand fuel) := (Option.some.inj h').symm
      subst hp
      exact ⟨fuel, by omega, rfl, by assumption⟩
    · obtain ⟨i, hi, h2, h3⟩ := ih p h'
      exact ⟨i, by omega, h2, h3⟩

/-! ## Key generation -/

/-- Bezout identity for the fuelled extended Euclid. -/
theorem xgcdFuel_spec :
    ∀ (fuel a b : ℕ), b ≤ fuel →
      (a : ℤ) * (xgcdFuel fuel a b).1 + (b : ℤ) * (xgcdFuel fuel a b).2 = Nat.gcd a b := by
  intro fuel
  induction fuel with
  | zero =>
    intro a b hb
    have hb0 : b = 0 := by omega
    subst hb0
    show (a : ℤ) * 1 + 0 * 0 = Nat.gcd a 0
    simp
  | succ fuel ih =>
    intro a b hb
    by_cases hb0 : b = 0
    · subst hb0
      show (a : ℤ) * 1 + 0 * 0 = Nat.gcd a 0
      simp
    · have hrec : xgcdFuel (fuel + 1) a b =
          ((xgcdFuel fuel b (a % b)).2,
            (xgcdFuel fuel b (a % b)).1 - (a / b : ℕ) * (xgcdFuel fuel b (a % b)).2) := by
        simp [xgcdFuel, hb0]
      rw [hrec]
      have hmod : a % b ≤ fuel := by
        have := Nat.mod_lt a (show 0 < b by omega)
        omega
      have IH := ih b (a % b) hmod
      have hgcd : (Nat.gcd a b : ℤ) = (Nat.gcd b (a % b) : ℤ) := by
        rw [Nat.gcd_comm a b, Nat.gcd_rec b a, Nat.gcd_comm (a % b) b]
      have hdm : (a : ℤ) = (b : ℤ) * ((a / b : ℕ) : ℤ) + ((a % b : ℕ) : ℤ) := by
        exact_mod_cast (Nat.div_add_mod a b).symm
      rw [hgcd]
      linear_combination IH + (xgcdFuel fuel b (a % b)).2 * hdm

/-- Correctness of `modInv` under the coprimality the source establishes
before calling it: the result is the canonical modular inverse. -/
theorem modInv_spec (a m : ℕ) (hm : 0 < m) (hg : Nat.gcd a m = 1) :
    a * modInv a m % m = 1 % m ∧ modInv a m < m := by
  have hspec := xgcdFuel_spec (m + 1) (a % m) m (by omega)
  set g := xgcdFuel (m + 1) (a % m) m with hgdef
  have hgcd : Nat.gcd (a % m) m = 1 := by
    rw [← Nat.gcd_rec m a, Nat.gcd_comm m a]
    exact hg
  rw [hgcd] at hspec
  push_cast at hspec
  have hmz : (m : ℤ) ≠ 0 := by
    have : (0 : ℤ) < m := by exact_mod_cast hm
    omega
  have hnonneg : 0 ≤ g.1 % (m : ℤ) := Int.emod_nonneg _ hmz
  have hlt : g.1 % (m : ℤ) < m := Int.emod_lt_of_pos _ (by exact_mod_cast hm)
  have hdval : ((modInv a m : ℕ) : ℤ) = g.1 % (m : ℤ) := by
    show (((xgcdFuel (m + 1) (a % m) m).1 % (m : ℤ)).toNat : ℤ) = g.1 % (m : ℤ)
    rw [← hgdef]
    exact Int.toNat_of_nonneg hnonneg
  constructor
  · have h1 : (a : ℤ) * g.1 % m = 1 % m := by
      have step1 : (a : ℤ) * g.1 % m = ((a : ℤ) % m) * g.1 % m := by
        conv_lhs => rw [Int.mul_emod]
        conv_rhs => rw [Int.mul_emod, Int.emod_emod_of_dvd _ dvd_rfl]
      have step2 : ((a : ℤ) % m) * g.1 = 1 - m * g.2 := by linarith
      rw [step1, step2, show (1 : ℤ) - m * g.2 = 1 + m * (-g.2) by ring]
      exact Int.add_mul_emod_self_left 1 m (-g.2)
    have h2 : (a : ℤ) * (modInv a m : ℕ) % m = 1 % m := by
      rw [hdval, Int.mul_emod, Int.emod_emod_of_dvd _ dvd_rfl, ← Int.mul_emod]
      exact h1
    exact_mod_cast h2
  · have : ((modInv a m : ℕ) : ℤ) < m := hdval ▸ hlt
    exact_mod_cast this

/-- Inversion of the public-exponent loop: a returned exponent is coprime
with `phi`, and equals the starting value whenever that was already
coprime. -/
theorem pickE_spec (phi : ℕ) (es : ℕ → ℕ) :
    ∀ fuel e0 e, pickE phi es fuel e0 = some e →
      Nat.gcd e phi = 1 ∧ (Nat.gcd e0 phi = 1 → e = e0) := by
  intro fuel
  induction fuel with
  | zero =>
    intro e0 e h
    unfold pickE at h
    split at h
    · cases h
      exact ⟨by assumption, fun _ => rfl⟩
    · cases h
  | succ fuel ih =>
    intro e0 e h
    unfold pickE at h
    split at h
    · cases h
      exact ⟨by assumption, fun _ => rfl⟩
    · obtain ⟨h1, _⟩ := ih _ _ h
      exact ⟨h1, fun hg => absurd hg (by assumption)⟩

/-- Full inversion of `generar_claves`: the returned pair carries
`n = p * q` for the two generated candidates, a coprime public exponent that
defaults to `65537`, and the modular inverse as private exponent. -/
theorem generar_claves_spec (bits fuel : ℕ) (r1 r2 : ℕ → ℕ) (w1 w2 : ℕ → ℕ → ℕ)
    (es : ℕ → ℕ) (e n d n' : ℕ)
    (h : generar_claves bits r1 r2 w1 w2 es fuel = some ((e, n), (d, n'))) :
    ∃ p q,
      generar_primo (bits / 2) r1 w1 fuel = some p ∧
      generar_primo (bits / 2) r2 w2 fuel = some q ∧
      2 ≤ p ∧ 2 ≤ q ∧ n = p * q ∧ n' = n ∧
      Nat.gcd e ((p - 1) * (q - 1)) = 1 ∧
      d = modInv e ((p - 1) * (q - 1)) ∧
      e * d % ((p - 1) * (q - 1)) = 1 % ((p - 1) * (q - 1)) ∧
      (Nat.gcd 65537 ((p - 1) * (q - 1)) = 1 → e = 65537) := by
  unfold generar_claves at h
  cases hgp : generar_primo (bits / 2) r1 w1 fuel with
  | none => rw [hgp] at h; cases h
  | some p =>
  cases hgq : generar_primo (bits / 2) r2 w2 fuel with
  | none => rw [hgp, hgq] at h; cases h
  | some q =>
  rw [hgp, hgq] at h
  simp only at h
  cases hpe : pickE ((p - 1) * (q - 1)) es fuel 65537 with
  | none => rw [hpe] at h; cases h
  | some e' =>
  rw [hpe] at h
  simp only [Option.some.injEq, Prod.mk.injEq] at h
  obtain ⟨⟨he, hn⟩, hd, hn'⟩ := h
  subst he hn hd hn'
  obtain ⟨i1, _, _, hes1⟩ := generar_primo_spec _ r1 w1 fuel p hgp
  obtain ⟨i2, _, _, hes2⟩ := generar_primo_spec _ r2 w2 fuel q hgq
  have hp2 : 2 ≤ p := es_primo_ge_two hes1
  have hq2 : 2 ≤ q := es_primo_ge_two hes2
  obtain ⟨hgcd, hdef⟩ := pickE_spec _ es fuel 65537 e' hpe
  have hphi : 0 < (p - 1) * (q - 1) := by
    have : 1 ≤ p - 1 := by omega
    have : 1 ≤ q - 1 := by omega
    positivity
  obtain ⟨hinv, _⟩ := modInv_spec e' ((p - 1) * (q - 1)) hphi hgcd
  exact ⟨p, q, rfl, rfl, hp2, hq2, rfl, rfl, hgcd, rfl, hinv, hdef⟩

/-! ## Byte codec -/

theorem bytesToInt_foldl (l : List ℕ) :
    ∀ a, l.foldl (fun acc x => acc * 256 + x) a = a * 256 ^ l.length + bytesToInt l := by
  induction l with
  | nil => intro a; simp [bytesToInt]
  | cons x xs ih =>
    intro a
    show List.foldl _ (a * 256 + x) xs = a * 256 ^ (x :: xs).length + bytesToInt (x :: xs)
    rw [ih (a * 256 + x)]
    have hx : bytesToInt (x :: xs) = x * 256 ^ xs.length + bytesToInt xs := by
      show List.foldl _ (0 * 256 + x) xs = _
      rw [show 0 * 256 + x = x from by ring, ih x]
    rw [hx, List.length_cons, pow_succ]
    ring

theorem bytesToInt_cons (x : ℕ) (xs : List ℕ) :
    bytesToInt (x :: xs) = x * 256 ^ xs.length + bytesToInt xs := by
  show List.foldl _ (0 * 256 + x) xs = _
  rw [show 0 * 256 + x = x from by ring, bytesToInt_foldl]

theorem bytesToInt_append (l1 l2 : List ℕ) :
    bytesToInt (l1 ++ l2) = bytesToInt l1 * 256 ^ l2.length + bytesToInt l2 := by
  show List.foldl _ 0 (l1 ++ l2) = _
  rw [List.foldl_append, bytesToInt_foldl]
  rfl

theorem bytesToInt_lt (l : List ℕ) (h : ∀ x ∈ l, x < 256) :
    bytesToInt l < 256 ^ l.length := by
  induction l with
  | nil => simp [bytesToInt]
  | cons x xs ih =>
    rw [bytesToInt_cons, List.length_cons, pow_succ]
    have hx : x < 256 := h x (by simp)
    have hxs : bytesToInt xs < 256 ^ xs.length := ih fun y hy => h y (by simp [hy])
    calc x * 256 ^ xs.length + bytesToInt xs
        < x * 256 ^ xs.length + 256 ^ xs.length := by omega
      _ = (x + 1) * 256 ^ xs.length := by ring
      _ ≤ 256 * 256 ^ xs.length := Nat.mul_le_mul_right _ (by omega)
      _ = 256 ^ xs.length * 256 := by ring

theorem toBytesBE_length : ∀ (len m : ℕ), (toBytesBE m len).length = len := by
  intro len
  induction len with
  | zero => intro m; rfl
  | succ len ih => intro m; show (toBytesBE (m / 256) len ++ [m % 256]).length = len + 1; simp [ih]

theorem toBytesBE_bytes_lt : ∀ (len m : ℕ), ∀ x ∈ toBytesBE m len, x < 256 := by
  intro len
  induction len with
  | zero => intro m x hx; cases hx
  | succ len ih =>
    intro m x hx
    rcases List.mem_append.1 hx with h | h
    · exact ih _ x h
    · have : x = m % 256 := by simpa using h
      omega

/-- Fixed-width big-endian re-encoding of a byte string is the identity. -/
theorem toBytesBE_id (l : List ℕ) (h : ∀ x ∈ l, x < 256) :
    toBytesBE (bytesToInt l) l.length = l := by
  induction l using List.reverseRecOn with
  | nil => rfl
  | append_singleton l x ih =>
    have hx : x < 256 := h x (by simp)
    have hl : ∀ y ∈ l, y < 256 := fun y hy => h y (by simp [hy])
    have hv : bytesToInt (l ++ [x]) = bytesToInt l * 256 + x := by
      rw [bytesToInt_append]
      have hone : bytesToInt [x] = x := by simp [bytesToInt]
      rw [hone]
      simp
    have hlen : (l ++ [x]).length = l.length + 1 := by simp
    rw [hv, hlen]
    show toBytesBE ((bytesToInt l * 256 + x) / 256) l.length ++ [(bytesToInt l * 256 + x) % 256]
        = l ++ [x]
    have hdiv : (bytesToInt l * 256 + x) / 256 = bytesToInt l := by omega
    have hmod : (bytesToInt l * 256 + x) % 256 = x := by omega
    rw [hdiv, hmod, ih hl]

theorem toBytesBE_correct : ∀ (len m : ℕ), bytesToInt (toBytesBE m len) = m % 256 ^ len := by
  intro len
  induction len with
  | zero => intro m; simp [toBytesBE, bytesToInt, Nat.mod_one]
  | succ len ih =>
    intro m
    show bytesToInt (toBytesBE (m / 256) len ++ [m % 256]) = m % 256 ^ (len + 1)
    rw [bytesToInt_append, ih]
    have h1 : bytesToInt [m % 256] = m % 256 := by simp [bytesToInt]
    have h2 : ([m % 256] : List ℕ).length = 1 := rfl
    rw [h1, h2, pow_one]
    rw [pow_succ, mul_comm (256 ^ len) 256, Nat.mod_mul]
    ring

theorem decodeBlock_length (m : ℕ) : (decodeBlock m).length = (bitLen m + 7) / 8 :=
  toBytesBE_length _ _

theorem decodeBlock_bytes_lt (m : ℕ) : ∀ x ∈ decodeBlock m, x < 256 :=
  toBytesBE_bytes_lt _ _

/-- The minimal big-endian encoding really recovers its integer. -/
theorem bytesToInt_decodeBlock (m : ℕ) : bytesToInt (decodeBlock m) = m := by
  unfold decodeBlock
  rw [toBytesBE_correct]
  apply Nat.mod_eq_of_lt
  rcases Nat.eq_zero_or_pos m with rfl | hm
  · positivity
  · obtain ⟨_, h2, _⟩ := bitLen_spec m hm
    calc m < 2 ^ bitLen m := h2
      _ ≤ 2 ^ (8 * ((bitLen m + 7) / 8)) := Nat.pow_le_pow_right (by omega) (by omega)
      _ = 256 ^ ((bitLen m + 7) / 8) := by rw [pow_mul]; norm_num

theorem bytesToInt_dropWhile_zero (l : List ℕ) :
    bytesToInt (l.dropWhile fun x => x == 0) = bytesToInt l := by
  induction l with
  | nil => rfl
  | cons x xs ih =>
    rw [List.dropWhile_cons]
    by_cases hx : x = 0
    · subst hx
      simp only [beq_self_eq_true, if_true]
      rw [ih, bytesToInt_cons]
      simp
    · have : (x == 0) = false := by simpa using hx
      rw [this]
      simp

theorem dropWhile_head_false {p : ℕ → Bool} :
    ∀ (l : List ℕ) x xs, l.dropWhile p = x :: xs → p x = false := by
  intro l
  induction l with
  | nil => intro x xs h; cases h
  | cons y ys ih =>
    intro x xs h
    rw [List.dropWhile_cons] at h
    by_cases hy : p y = true
    · rw [if_pos hy] at h
      exact ih x xs h
    · rw [if_neg hy] at h
      cases h
      simpa using hy

/-- Re-encoding a byte block drops exactly its leading zero bytes. -/
theorem decodeBlock_bytesToInt (l : List ℕ) (h : ∀ x ∈ l, x < 256) :
    decodeBlock (bytesToInt l) = l.dropWhile fun x => x == 0 := by
  cases hl' : l.dropWhile fun x => x == 0 with
  | nil =>
    have hv : bytesToInt l = 0 := by
      rw [← bytesToInt_dropWhile_zero, hl']
      rfl
    rw [hv]
    rfl
  | cons x xs =>
    have hxne : x ≠ 0 := by
      have := dropWhile_head_false l x xs hl'
      simpa using this
    have hsub : ∀ y ∈ x :: xs, y < 256 := by
      intro y hy
      apply h
      exact (List.dropWhile_sublist _).subset (hl' ▸ hy)
    have hx : x < 256 := hsub x (by simp)
    have hv : bytesToInt l = x * 256 ^ xs.length + bytesToInt xs := by
      rw [← bytesToInt_dropWhile_zero, hl', bytesToInt_cons]
    have hxs : bytesToInt xs < 256 ^ xs.length := bytesToInt_lt xs fun y hy => hsub y (by simp [hy])
    have h256 : ∀ k : ℕ, (2 : ℕ) ^ (8 * k) = 256 ^ k := by
      intro k
      rw [pow_mul]
      norm_num
    have hlow : 2 ^ (8 * xs.length) ≤ bytesToInt l := by
      rw [hv, h256]
      have : 1 * 256 ^ xs.length ≤ x * 256 ^ xs.length :=
        Nat.mul_le_mul_right _ (by omega)
      omega
    have hhigh : bytesToInt l < 2 ^ (8 * (xs.length + 1)) := by
      rw [hv, h256]
      calc x * 256 ^ xs.length + bytesToInt xs
          < (x + 1) * 256 ^ xs.length := by
            have : x * 256 ^ xs.length + 256 ^ xs.length = (x + 1) * 256 ^ xs.length := by ring
            omega
        _ ≤ 256 * 256 ^ xs.length := Nat.mul_le_mul_right _ (by omega)
        _ = 256 ^ (xs.length + 1) := by rw [pow_succ]; ring
    have hbl : bitLen (bytesToInt l) ≤ 8 * xs.length + 8 :=
      (bitLen_le_iff _ _).2 (by rw [show 8 * xs.length + 8 = 8 * (xs.length + 1) by ring]; exact hhigh)
    have hbl2 : ¬ bitLen (bytesToInt l) ≤ 8 * xs.length := by
      rw [bitLen_le_iff]
      omega
    have hW : (bitLen (bytesToInt l) + 7) / 8 = xs.length + 1 := by omega
    unfold decodeBlock
    rw [hW]
    have hvv : bytesToInt (x :: xs) = bytesToInt l := by
      rw [← hl']
      exact bytesToInt_dropWhile_zero l
    rw [← hvv]
    exact toBytesBE_id (x :: xs) hsub

/-! ## Chunking -/

theorem chunksExact_join :
    ∀ fuel size (l : List ℕ), l.length ≤ fuel → 1 ≤ size →
      joinBytes (chunksExact fuel size l) = l := by
  intro fuel
  induction fuel with
  | zero =>
    intro size l h1 _
    cases l with
    | nil => rfl
    | cons x xs => simp at h1
  | succ fuel ih =>
    intro size l h1 h2
    cases l with
    | nil => rfl
    | cons x xs =>
      show (x :: xs).take size ++ joinBytes (chunksExact fuel size ((x :: xs).drop size)) = x :: xs
      have hd : ((x :: xs).drop size).length ≤ fuel := by
        rw [List.length_drop]
        simp only [List.length_cons] at h1 ⊢
        omega
      rw [ih size ((x :: xs).drop size) hd h2]
      exact List.take_append_drop _ _

theorem chunksExact_mem_length :
    ∀ fuel size (l c : List ℕ), c ∈ chunksExact fuel size l → c.length ≤ size := by
  intro fuel
  induction fuel with
  | zero =>
    intro size l c hc
    cases l with
    | nil => cases hc
    | cons x xs => cases hc
  | succ fuel ih =>
    intro size l c hc
    cases l with
    | nil => cases hc
    | cons x xs =>
      rcases List.mem_cons.1 hc with h | h
      · subst h
        simp [List.length_take]
      · exact ih size _ c h

theorem chunksExact_mem_subset :
    ∀ fuel size (l c : List ℕ), c ∈ chunksExact fuel size l → ∀ x ∈ c, x ∈ l := by
  intro fuel
  induction fuel with
  | zero =>
    intro size l c hc
    cases l with
    | nil => cases hc
    | cons y ys => cases hc
  | succ fuel ih =>
    intro size l c hc x hx
    cases l with
    | nil => cases hc
    | cons y ys =>
      rcases List.mem_cons.1 hc with h | h
      · subst h
        exact List.take_subset _ _ hx
      · exact List.drop_subset _ _ (ih size _ c h x hx)

theorem cifrarBloques_ok (e n : ℕ) :
    ∀ bs : List (List ℕ), (∀ b ∈ bs, bytesToInt b < n) →
      cifrarBloques e n bs = Except.ok (bs.map fun b => bytesToInt b ^ e % n) := by
  intro bs
  induction bs with
  | nil => intro _; rfl
  | cons b bs ih =>
    intro h
    show (if n ≤ bytesToInt b then Except.error RSAErr.blockTooLarge
        else match cifrarBloques e n bs with
          | Except.ok rest => Except.ok (bytesToInt b ^ e % n :: rest)
          | Except.error err => Except.error err) = _
    rw [if_neg (by have := h b (by simp); omega), ih fun c hc => h c (by simp [hc])]
    rfl

/-! ## RSA round trip -/

/-- Fermat-Euler step: modulo a prime `p`, raising to a power `≡ 1 (mod p-1)`
fixes every residue (including multiples of `p`). -/
theorem pow_fermat_aux {p : ℕ} (hp : p.Prime) (m r : ℕ) :
    m ^ (r * (p - 1) + 1) ≡ m [MOD p] := by
  by_cases hdvd : p ∣ m
  · have h1 : p ∣ m ^ (r * (p - 1) + 1) := dvd_pow hdvd (by omega)
    calc m ^ (r * (p - 1) + 1) ≡ 0 [MOD p] := Nat.modEq_zero_iff_dvd.2 h1
      _ ≡ m [MOD p] := (Nat.modEq_zero_iff_dvd.2 hdvd).symm
  · have hcop : Nat.Coprime m p := ((Nat.Prime.coprime_iff_not_dvd hp).2 hdvd).symm
    have heuler : m ^ (p - 1) ≡ 1 [MOD p] := by
      have h := Nat.ModEq.pow_totient hcop
      rwa [Nat.totient_prime hp] at h
    calc m ^ (r * (p - 1) + 1) = (m ^ (p - 1)) ^ r * m := by
          rw [pow_add, pow_one, ← pow_mul, mul_comm (p - 1) r]
      _ ≡ 1 ^ r * m [MOD p] := ((heuler.pow r).mul_right m)
      _ = m := by ring

/-- Textbook RSA round trip for distinct primes: encrypt-then-decrypt fixes
every block value below the modulus. -/
theorem rsa_roundtrip {p q e d : ℕ} (hp : p.Prime) (hq : q.Prime) (hpq : p ≠ q)
    (hed : e * d % ((p - 1) * (q - 1)) = 1 % ((p - 1) * (q - 1))) :
    ∀ m, m < p * q → (m ^ e % (p * q)) ^ d % (p * q) = m := by
  intro m hm
  have hp2 := hp.two_le
  have hq2 := hq.two_le
  have h3 : 3 ≤ p ∨ 3 ≤ q := by
    by_contra hc
    push_neg at hc
    have : p = 2 := by omega
    have : q = 2 := by omega
    omega
  have hphi2 : 2 ≤ (p - 1) * (q - 1) := by
    rcases h3 with h | h
    · calc 2 = 2 * 1 := by ring
        _ ≤ (p - 1) * (q - 1) := Nat.mul_le_mul (by omega) (by omega)
    · calc 2 = 1 * 2 := by ring
        _ ≤ (p - 1) * (q - 1) := Nat.mul_le_mul (by omega) (by omega)
  have hed1 : e * d = (p - 1) * (q - 1) * (e * d / ((p - 1) * (q - 1))) + 1 := by
    have h1 : 1 % ((p - 1) * (q - 1)) = 1 := Nat.mod_eq_of_lt (by omega)
    have h2 := Nat.div_add_mod (e * d) ((p - 1) * (q - 1))
    omega
  set t := e * d / ((p - 1) * (q - 1)) with ht
  have hmodp : m ^ (e * d) ≡ m [MOD p] := by
    have heq : e * d = t * (q - 1) * (p - 1) + 1 := by rw [hed1]; ring
    rw [heq]
    exact pow_fermat_aux hp m (t * (q - 1))
  have hmodq : m ^ (e * d) ≡ m [MOD q] := by
    have heq : e * d = t * (p - 1) * (q - 1) + 1 := by rw [hed1]; ring
    rw [heq]
    exact pow_fermat_aux hq m (t * (p - 1))
  have hcop : Nat.Coprime p q := (Nat.coprime_primes hp hq).2 hpq
  have hmodn : m ^ (e * d) ≡ m [MOD p * q] :=
    (Nat.modEq_and_modEq_iff_modEq_mul hcop).1 ⟨hmodp, hmodq⟩
  calc (m ^ e % (p * q)) ^ d % (p * q) = (m ^ e) ^ d % (p * q) := by
        conv_lhs => rw [Nat.pow_mod, Nat.mod_mod_of_dvd _ dvd_rfl, ← Nat.pow_mod]
    _ = m ^ (e * d) % (p * q) := by rw [← pow_mul]
    _ = m % (p * q) := hmodn
    _ = m := Nat.mod_eq_of_lt hm

/-! ## UTF-8 round trip -/

theorem utf8DecodeAux_step1 (f b : ℕ) (rest : List ℕ) (h : b < 0x80) :
    utf8DecodeAux (f + 1) (b :: rest) = b :: utf8DecodeAux f rest := by
  conv_lhs => unfold utf8DecodeAux
  rw [if_pos h]

theorem utf8DecodeAux_step2 (f b b1 : ℕ) (rest : List ℕ) (h0 : 0xC2 ≤ b) (h1 : b < 0xE0)
    (hc : isCont b1 = true) :
    utf8DecodeAux (f + 1) (b :: b1 :: rest)
      = ((b - 0xC0) * 64 + (b1 - 0x80)) :: utf8DecodeAux f rest := by
  conv_lhs => unfold utf8DecodeAux
  rw [if_neg (by omega), if_neg (by omega), if_pos h1]
  simp only [hc, if_true]

theorem utf8DecodeAux_step3 (f b b1 b2 : ℕ) (rest : List ℕ) (h0 : 0xE0 ≤ b) (h1 : b < 0xF0)
    (hc1 : cont3 b b1 = true) (hc2 : isCont b2 = true) :
    utf8DecodeAux (f + 1) (b :: b1 :: b2 :: rest)
      = ((b - 0xE0) * 4096 + (b1 - 0x80) * 64 + (b2 - 0x80)) :: utf8DecodeAux f rest := by
  conv_lhs => unfold utf8DecodeAux
  rw [if_neg (by omega), if_neg (by omega), if_neg (by omega), if_pos h1]
  simp only [hc1, hc2, if_true]

theorem utf8DecodeAux_step4 (f b b1 b2 b3 : ℕ) (rest : List ℕ) (h0 : 0xF0 ≤ b) (h1 : b < 0xF5)
    (hc1 : cont4 b b1 = true) (hc2 : isCont b2 = true) (hc3 : isCont b3 = true) :
    utf8DecodeAux (f + 1) (b :: b1 :: b2 :: b3 :: rest)
      = ((b - 0xF0) * 262144 + (b1 - 0x80) * 4096 + (b2 - 0x80) * 64 + (b3 - 0x80))
        :: utf8DecodeAux f rest := by
  conv_lhs => unfold utf8DecodeAux
  rw [if_neg (by omega), if_neg (by omega), if_neg (by omega), if_neg (by omega), if_pos h1]
  simp only [hc1, hc2, hc3, if_true]

/-- Decoding inverts encoding on every valid scalar stream: the decoder
consumes each character's byte group exactly. -/
theorem utf8DecodeAux_encode (M : List ℕ) :
    ∀ fuel, (∀ c ∈ M, validScalar c) → (utf8EncodeList M).length ≤ fuel →
      utf8DecodeAux fuel (utf8EncodeList M) = M := by
  induction M with
  | nil =>
    intro fuel _ _
    cases fuel <;> rfl
  | cons c M ih =>
    intro fuel hval hlen
    have hc : validScalar c := hval c (by simp)
    have hval' : ∀ x ∈ M, validScalar x := fun x hx => hval x (by simp [hx])
    show utf8DecodeAux fuel (utf8EncodeChar c ++ utf8EncodeList M) = c :: M
    by_cases h1 : c < 0x80
    · have he : utf8EncodeChar c = [c] := by simp [utf8EncodeChar, h1]
      have hlen' : (utf8EncodeChar c ++ utf8EncodeList M).length ≤ fuel := hlen
      rw [he] at hlen' ⊢
      simp only [List.length_append, List.length_cons, List.length_nil] at hlen'
      obtain ⟨f, rfl⟩ : ∃ f, fuel = f + 1 := ⟨fuel - 1, by omega⟩
      rw [List.cons_append, List.nil_append, utf8DecodeAux_step1 f c _ h1]
      rw [ih f hval' (by omega)]
    · by_cases h2 : c < 0x800
      · have he : utf8EncodeChar c = [0xC0 + c / 64, 0x80 + c % 64] := by
          simp [utf8EncodeChar, h1, h2]
        have hlen' : (utf8EncodeChar c ++ utf8EncodeList M).length ≤ fuel := hlen
        rw [he] at hlen' ⊢
        simp only [List.length_append, List.length_cons, List.length_nil] at hlen'
        obtain ⟨f, rfl⟩ : ∃ f, fuel = f + 1 := ⟨fuel - 1, by omega⟩
        rw [List.cons_append, List.cons_append, List.nil_append]
        rw [utf8DecodeAux_step2 f _ _ _ (by omega) (by omega)
          (by simp only [isCont, decide_eq_true_eq]; omega)]
        rw [ih f hval' (by omega)]
        congr 1
        omega
      · by_cases h3 : c < 0x10000
        · have he : utf8EncodeChar c = [0xE0 + c / 4096, 0x80 + c / 64 % 64, 0x80 + c % 64] := by
            simp [utf8EncodeChar, h1, h2, h3]
          have hlen' : (utf8EncodeChar c ++ utf8EncodeList M).length ≤ fuel := hlen
          rw [he] at hlen' ⊢
          simp only [List.length_append, List.length_cons, List.length_nil] at hlen'
          obtain ⟨f, rfl⟩ : ∃ f, fuel = f + 1 := ⟨fuel - 1, by omega⟩
          have hsur : ¬(55296 ≤ c ∧ c ≤ 57343) := hc.2
          have hcont1 : cont3 (0xE0 + c / 4096) (0x80 + c / 64 % 64) = true := by
            unfold cont3
            by_cases hE0 : c / 4096 = 0
            · rw [if_pos (by omega)]
              simp only [decide_eq_true_eq]
              omega
            · by_cases hED : c / 4096 = 13
              · rw [if_neg (by omega), if_pos (by omega)]
                simp only [decide_eq_true_eq]
                omega
              · rw [if_neg (by omega), if_neg (by omega)]
                simp only [isCont, decide_eq_true_eq]
                omega
          rw [List.cons_append, List.cons_append, List.cons_append, List.nil_append]
          rw [utf8DecodeAux_step3 f _ _ _ _ (by omega) (by omega) hcont1
            (by simp only [isCont, decide_eq_true_eq]; omega)]
          rw [ih f hval' (by omega)]
          congr 1
          omega
        · have h4 : c < 1114112 := hc.1
          have he : utf8EncodeChar c
              = [0xF0 + c / 262144, 0x80 + c / 4096 % 64, 0x80 + c / 64 % 64, 0x80 + c % 64] := by
            simp [utf8EncodeChar, h1, h2, h3]
          have hlen' : (utf8EncodeChar c ++ utf8EncodeList M).length ≤ fuel := hlen
          rw [he] at hlen' ⊢
          simp only [List.length_append, List.length_cons, List.length_nil] at hlen'
          obtain ⟨f, rfl⟩ : ∃ f, fuel = f + 1 := ⟨fuel - 1, by omega⟩
          have hcont1 : cont4 (0xF0 + c / 262144) (0x80 + c / 4096 % 64) = true := by
            unfold cont4
            by_cases hF0 : c / 262144 = 0
            · rw [if_pos (by omega)]
              simp only [decide_eq_true_eq]
              omega
            · by_cases hF4 : c / 262144 = 4
              · rw [if_neg (by omega), if_pos (by omega)]
                simp only [decide_eq_true_eq]
                omega
              · rw [if_neg (by omega), if_neg (by omega)]
                simp only [isCont, decide_eq_true_eq]
                omega
          rw [List.cons_append, List.cons_append, List.cons_append, List.cons_append,
            List.nil_append]
          rw [utf8DecodeAux_step4 f _ _ _ _ _ (by omega) (by omega) hcont1
            (by simp only [isCont, decide_eq_true_eq]; omega)
            (by simp only [isCont, decide_eq_true_eq]; omega)]
          rw [ih f hval' (by omega)]
          congr 1
          omega

/-- The decoder, as called by `descifrar_mensaje`, inverts the encoder used
by `cifrar_mensaje` on valid text. -/
theorem utf8DecodeReplace_encode (M : List ℕ) (hval : ∀ c ∈ M, validScalar c) :
    utf8DecodeReplace (utf8EncodeList M) = M :=
  utf8DecodeAux_encode M _ hval le_rfl

/-! ## Auxiliary facts for the claim theorems -/

theorem utf8EncodeChar_lt (c : ℕ) (h : c < 1114112) : ∀ x ∈ utf8EncodeChar c, x < 256 := by
  unfold utf8EncodeChar
  split_ifs with h1 h2 h3 <;> intro x hx <;>
    simp only [List.mem_cons, List.not_mem_nil, or_false] at hx
  · omega
  · rcases hx with rfl | rfl <;> omega
  · rcases hx with rfl | rfl | rfl <;> omega
  · rcases hx with rfl | rfl | rfl | rfl <;> omega

theorem utf8EncodeList_lt (M : List ℕ) (h : ∀ c ∈ M, c < 1114112) :
    ∀ x ∈ utf8EncodeList M, x < 256 := by
  induction M with
  | nil => intro x hx; cases hx
  | cons c M ih =>
    intro x hx
    rcases List.mem_append.1 hx with hx | hx
    · exact utf8EncodeChar_lt c (h c (by simp)) x hx
    · exact ih (fun y hy => h y (by simp [hy])) x hx

theorem allPySpace_false {M : List ℕ} (h : ∃ c ∈ M, isPySpace c = false) :
    M.all isPySpace = false := by
  rcases h with ⟨c, hc, hf⟩
  rcases Bool.eq_false_or_eq_true (M.all isPySpace) with hb | hb
  · exact absurd (List.all_eq_true.mp hb c hc) (by simp [hf])
  · exact hb

theorem bitLen_zero : bitLen 0 = 0 := rfl

theorem bloque_max_toNat (n : ℕ) (h : 16 ≤ bitLen n) :
    (bloque_max n).toNat = bitLen n / 8 - 1 ∧ 1 ≤ (bloque_max n).toNat := by
  unfold bloque_max
  omega

theorem block_value_lt (n : ℕ) (h : 16 ≤ bitLen n) (b : List ℕ)
    (hb : ∀ x ∈ b, x < 256) (hlen : b.length ≤ (bloque_max n).toNat) : bytesToInt b < n := by
  have hn0 : 0 < n := by
    by_contra h0
    have hz : n = 0 := by omega
    rw [hz, bitLen_zero] at h
    omega
  obtain ⟨h1, _, _⟩ := bitLen_spec n hn0
  obtain ⟨hLeq, hL1⟩ := bloque_max_toNat n h
  calc bytesToInt b < 256 ^ b.length := bytesToInt_lt b hb
    _ ≤ 256 ^ (bloque_max n).toNat := Nat.pow_le_pow_right (by omega) hlen
    _ = 2 ^ (8 * (bloque_max n).toNat) := by rw [pow_mul]; norm_num
    _ ≤ 2 ^ (bitLen n - 1) := Nat.pow_le_pow_right (by omega) (by omega)
    _ ≤ n := h1

/-! ## Claim theorems -/

/-- Claim C9: `es_primo` is a total boolean function on the embedded domain:
it returns `false` for every `n ≤ 1`, `true` for `2 ≤ n ≤ 3`, and the
source's default round count (`k=5`, line 6) is `5`. -/
theorem es_primo_total (n : ℕ) (w : ℕ → ℕ) (k : ℕ) :
    (es_primo n w k = true ∨ es_primo n w k = false) ∧
    (n ≤ 1 → es_primo n w k = false) ∧
    (2 ≤ n → n ≤ 3 → es_primo n w k = true) ∧
    es_primo_default n w = es_primo n w 5 := by
  refine ⟨?_, ?_, ?_, rfl⟩
  · rcases Bool.eq_false_or_eq_true (es_primo n w k) with h | h
    · exact Or.inl h
    · exact Or.inr h
  · intro h
    simp [es_primo, h]
  · intro h2 h3
    have h1 : ¬ n ≤ 1 := by omega
    simp [es_primo, h1, h3]

/-- Witness for C9 at concrete inputs. -/
theorem es_primo_total_witness :
    es_primo 0 (fun _ => 2) 5 = false ∧ es_primo 3 (fun _ => 2) 7 = true :=
  ⟨(es_primo_total 0 (fun _ => 2) 5).2.1 (by omega),
    (es_primo_total 3 (fun _ => 2) 7).2.2.1 (by omega) (by omega)⟩

/-- Claim C4: when a public key is supplied whose modulus differs from the
private key's, decryption fails with `keyMismatch`, for every ciphertext —
the check happens before any block is processed. -/
theorem descifrar_keyMismatch (cifrados : List ℕ) (d n e0 n0 : ℕ) (h : n ≠ n0) :
    descifrar_mensaje cifrados (d, n) (some (e0, n0)) = Except.error RSAErr.keyMismatch := by
  show (if n ≠ n0 then Except.error RSAErr.keyMismatch else descifrarCuerpo cifrados d n)
      = Except.error RSAErr.keyMismatch
  rw [if_pos h]

/-- Witness for C4 at concrete inputs. -/
theorem descifrar_keyMismatch_witness :
    descifrar_mensaje [5] (3, 7) (some (65537, 9)) = Except.error RSAErr.keyMismatch :=
  descifrar_keyMismatch [5] 3 7 65537 9 (by omega)

/-- Claim C10: for a modulus of fewer than 8 bits the computed block limit is
negative, the Python `range` with a negative step yields no blocks, and
encryption silently returns the empty ciphertext for every message. -/
theorem cifrar_tiny_modulus (mensaje : List ℕ) (e n : ℕ) (hn : bitLen n < 8)
    (_hM : ∀ c ∈ mensaje, validScalar c) :
    bloque_max n < 0 ∧ cifrar_mensaje mensaje (e, n) = Except.ok [] := by
  have hbm : bloque_max n = -1 := by
    unfold bloque_max
    omega
  refine ⟨by omega, ?_⟩
  have hsplit : splitBloques (utf8EncodeList mensaje) (bloque_max n) = some [] := by
    unfold splitBloques
    rw [hbm]
    norm_num
  show (match splitBloques (utf8EncodeList mensaje) (bloque_max n) with
    | none => Except.error RSAErr.rangeError
    | some bloques => cifrarBloques e n bloques) = Except.ok []
  rw [hsplit]
  rfl

/-- Witness for C10 at concrete inputs. -/
theorem cifrar_tiny_modulus_witness :
    bloque_max 100 < 0 ∧ cifrar_mensaje [104, 111] (3, 100) = Except.ok [] :=
  cifrar_tiny_modulus [104, 111] 3 100 (by decide) (by decide)

/-- Claim C7: `decodeBlock` is the minimal big-endian representation — its
length is `⌈bitLen m / 8⌉`, it recovers `m`, its entries are bytes,
`decodeBlock 0 = []`, and re-encoding a block drops exactly its leading zero
bytes. -/
theorem decodeBlock_minimal (m : ℕ) (b : List ℕ) (hb : ∀ x ∈ b, x < 256) :
    (decodeBlock m).length = (bitLen m + 7) / 8 ∧
    bytesToInt (decodeBlock m) = m ∧
    (∀ x ∈ decodeBlock m, x < 256) ∧
    decodeBlock 0 = [] ∧
    decodeBlock (bytesToInt b) = b.dropWhile (fun x => x == 0) :=
  ⟨decodeBlock_length m, bytesToInt_decodeBlock m, decodeBlock_bytes_lt m, rfl,
    decodeBlock_bytesToInt b hb⟩

/-- Witness for C7 at concrete inputs. -/
theorem decodeBlock_minimal_witness :
    bytesToInt (decodeBlock 5) = 5 ∧ decodeBlock (bytesToInt [0, 0, 7, 128]) = [7, 128] := by
  have h := decodeBlock_minimal 5 [0, 0, 7, 128] (by decide)
  exact ⟨h.2.1, h.2.2.2.2.trans (by decide)⟩

/-- Claim C3: the block limit is `bitLen n / 8 - 1` (so `127` at 1024 bits);
for `bitLen n ≥ 16` every limit-sized byte block encodes below `n`, and
encryption of any valid message succeeds — the `blockTooLarge` branch is
unreachable. -/
theorem bloque_max_safe (n : ℕ) :
    (bitLen n = 1024 → bloque_max n = 127) ∧
    (16 ≤ bitLen n →
      (∀ b : List ℕ, (∀ x ∈ b, x < 256) → b.length ≤ (bloque_max n).toNat → bytesToInt b < n) ∧
      (∀ e (M : List ℕ), (∀ c ∈ M, validScalar c) →
        ∃ cs, cifrar_mensaje M (e, n) = Except.ok cs)) := by
  constructor
  · intro h
    unfold bloque_max
    rw [h]
    norm_num
  · intro hsize
    refine ⟨fun b hb hlen => block_value_lt n hsize b hb hlen, ?_⟩
    intro e M hM
    obtain ⟨hLeq, hL1⟩ := bloque_max_toNat n hsize
    have hbpos : bloque_max n = ((bloque_max n).toNat : ℤ) := by
      unfold bloque_max at *
      omega
    have hsplit : splitBloques (utf8EncodeList M) (bloque_max n)
        = some (chunksExact (utf8EncodeList M).length (bloque_max n).toNat
            (utf8EncodeList M)) := by
      unfold splitBloques
      rw [if_neg (by omega : ¬ bloque_max n = 0), if_neg (by omega : ¬ bloque_max n < 0)]
    have hbyteslt : ∀ x ∈ utf8EncodeList M, x < 256 :=
      utf8EncodeList_lt M fun c hc => (hM c hc).1
    have hchlt : ∀ bl ∈ chunksExact (utf8EncodeList M).length (bloque_max n).toNat
        (utf8EncodeList M), bytesToInt bl < n := by
      intro bl hbl
      exact block_value_lt n hsize bl
        (fun x hx => hbyteslt x (chunksExact_mem_subset _ _ _ _ hbl x hx))
        (chunksExact_mem_length _ _ _ _ hbl)
    refine ⟨(chunksExact (utf8EncodeList M).length (bloque_max n).toNat
      (utf8EncodeList M)).map fun bl => bytesToInt bl ^ e % n, ?_⟩
    show (match splitBloques (utf8EncodeList M) (bloque_max n) with
      | none => Except.error RSAErr.rangeError
      | some bloques => cifrarBloques e n bloques) = _
    rw [hsplit]
    exact cifrarBloques_ok e n _ hchlt

/-- Witness for C3 at a concrete 1024-bit modulus. -/
theorem bloque_max_safe_witness :
    bloque_max (2 ^ 1023) = 127 ∧
    bytesToInt [255, 255] < 2 ^ 1023 ∧
    ∃ cs, cifrar_mensaje [104, 105] (65537, 2 ^ 1023) = Except.ok cs := by
  have h1024 : bitLen (2 ^ 1023) = 1024 := by decide
  have h := bloque_max_safe (2 ^ 1023)
  refine ⟨h.1 h1024, ?_, ?_⟩
  · exact (h.2 (by rw [h1024]; omega)).1 [255, 255] (by decide) (by decide)
  · exact (h.2 (by rw [h1024]; omega)).2 65537 [104, 105] (by decide)

/-- Claim C8: every value returned by `generar_primo` is odd, has exactly the
requested bit length, and was accepted by `es_primo` with the default round
count. -/
theorem generar_primo_shape (bits fuel : ℕ) (rand : ℕ → ℕ) (wit : ℕ → ℕ → ℕ) (p : ℕ)
    (hbits : 1 ≤ bits) (hrand : ∀ i, rand i < 2 ^ bits)
    (h : generar_primo bits rand wit fuel = some p) :
    p % 2 = 1 ∧ bitLen p = bits ∧
      ∃ i, p = forceBits bits (rand i) ∧ es_primo_default p (wit i) = true := by
  obtain ⟨i, _, hp, hes⟩ := generar_primo_spec bits rand wit fuel p h
  subst hp
  exact ⟨forceBits_odd _ _, forceBits_bitLen bits _ hbits (hrand i), ⟨i, rfl, hes⟩⟩

/-- Witness for C8 at a concrete 8-bit generation run. -/
theorem generar_primo_shape_witness :
    (251 : ℕ) % 2 = 1 ∧ bitLen 251 = 8 ∧
      ∃ i : ℕ, (251 : ℕ) = forceBits 8 ((fun _ : ℕ => 251) i) ∧
        es_primo_default 251 ((fun (_ _ : ℕ) => 250) i) = true :=
  generar_primo_shape 8 1 (fun _ => 251) (fun _ _ => 250) 251 (by omega)
    (fun _ => by norm_num) (by decide)

/-- Claim C2: a generated key pair carries one common modulus `n = p * q` for
the two generated candidates, a public exponent coprime with
`φ = (p-1)(q-1)` that is `65537` whenever `65537` is coprime with `φ`, and a
private exponent with `e * d ≡ 1 (mod φ)`. -/
theorem generar_claves_keypair (bits fuel : ℕ) (r1 r2 : ℕ → ℕ) (w1 w2 : ℕ → ℕ → ℕ)
    (es : ℕ → ℕ) (e n d n' : ℕ)
    (h : generar_claves bits r1 r2 w1 w2 es fuel = some ((e, n), (d, n'))) :
    n' = n ∧
    ∃ p q, generar_primo (bits / 2) r1 w1 fuel = some p ∧
      generar_primo (bits / 2) r2 w2 fuel = some q ∧ n = p * q ∧
      Nat.gcd e ((p - 1) * (q - 1)) = 1 ∧
      e * d ≡ 1 [MOD (p - 1) * (q - 1)] ∧
      (Nat.gcd 65537 ((p - 1) * (q - 1)) = 1 → e = 65537) := by
  obtain ⟨p, q, hgp, hgq, _, _, hn, hn', hgcd, _, hinv, hdef⟩ :=
    generar_claves_spec bits fuel r1 r2 w1 w2 es e n d n' h
  exact ⟨hn', p, q, hgp, hgq, hn, hgcd, hinv, hdef⟩

/-- Witness for C2 at a concrete 16-bit generation run. -/
theorem generar_claves_keypair_witness :
    (60491 : ℕ) = 60491 ∧
    ∃ p q, generar_primo (16 / 2) (fun _ => 251) (fun _ _ => 250) 1 = some p ∧
      generar_primo (16 / 2) (fun _ => 241) (fun _ _ => 240) 1 = some q ∧
      (60491 : ℕ) = p * q ∧
      Nat.gcd 65537 ((p - 1) * (q - 1)) = 1 ∧
      65537 * 33473 ≡ 1 [MOD (p - 1) * (q - 1)] ∧
      (Nat.gcd 65537 ((p - 1) * (q - 1)) = 1 → 65537 = 65537) :=
  generar_claves_keypair 16 1 (fun _ => 251) (fun _ => 241) (fun _ _ => 250)
    (fun _ _ => 240) (fun _ => 0) 65537 60491 33473 60491 (by decide)

/-- Claim C5 (amended): with the spec's `rounds ≥ 5`, `es_primo` answers
`true` on every prime below 10000 for every in-range witness choice; on
every composite below 10000 some in-range witness choice (the least prime
factor) makes it answer `false` — but not every witness choice does, see the
counterexample. -/
theorem es_primo_small_numbers (n k : ℕ) (hn : n < 10000) (hk : 5 ≤ k) :
    (Nat.Prime n → ∀ w : ℕ → ℕ, (∀ j, j < k → 2 ≤ w j ∧ w j ≤ n - 2) →
      es_primo n w k = true) ∧
    (¬ Nat.Prime n → 2 ≤ n →
      ∃ w : ℕ → ℕ, (∀ j, 2 ≤ w j ∧ w j ≤ n - 2) ∧ es_primo n w k = false) := by
  constructor
  · intro hp w hw
    apply es_primo_true_of_prime hp
    intro j hj
    obtain ⟨h2, h3⟩ := hw j hj
    intro hdvd
    have hle := Nat.le_of_dvd (by omega) hdvd
    have hn2 := hp.two_le
    omega
  · intro hnp hn2
    have h4 : 4 ≤ n := by
      have hne2 : n ≠ 2 := fun hh => hnp (hh ▸ Nat.prime_two)
      have hne3 : n ≠ 3 := fun hh => hnp (hh ▸ Nat.prime_three)
      omega
    refine ⟨fun _ => n.minFac, ?_, es_primo_false_of_composite h4 k (by omega)⟩
    intro j
    have hf2 : 2 ≤ n.minFac := (Nat.minFac_prime (by omega : n ≠ 1)).two_le
    have hsq : n.minFac ^ 2 ≤ n := Nat.minFac_sq_le_self (by omega) hnp
    have hmul : 2 * n.minFac ≤ n.minFac * n.minFac := Nat.mul_le_mul_right _ hf2
    have hsq' : n.minFac * n.minFac ≤ n := by
      rw [← pow_two]
      exact hsq
    have h2fn : 2 * n.minFac ≤ n := le_trans hmul hsq'
    constructor
    · show 2 ≤ n.minFac
      omega
    · show n.minFac ≤ n - 2
      omega

/-- Counterexample to the literal composite half of claim C5: `2047 = 23 · 89`
is composite, yet with every round witness equal to the in-range value `2`
the test answers `true` (2047 is a strong pseudoprime to base 2). -/
theorem es_primo_strong_pseudoprime :
    ¬ Nat.Prime 2047 ∧ 2 ≤ 2 ∧ 2 ≤ 2047 - 2 ∧ es_primo 2047 (fun _ => 2) 5 = true :=
  ⟨by norm_num, by omega, by omega, by decide⟩

/-- Witness for C5 at concrete inputs: the prime side at `n = 7` with witness
stream `2`, and the composite side at `n = 9`. -/
theorem es_primo_small_numbers_witness :
    es_primo 7 (fun _ => 2) 5 = true ∧
    ∃ w : ℕ → ℕ, (∀ j, 2 ≤ w j ∧ w j ≤ 9 - 2) ∧ es_primo 9 w 5 = false :=
  ⟨(es_primo_small_numbers 7 5 (by omega) (by omega)).1 (by norm_num) (fun _ => 2)
      (fun j _ => ⟨by norm_num, by norm_num⟩),
    (es_primo_small_numbers 9 5 (by omega) (by omega)).2 (by norm_num) (by omega)⟩

/-- Claim C6: under a matching (or absent) public key and a usable modulus,
decryption fails with `emptyResult` exactly when the lossily UTF-8-decoded
concatenation of the decrypted blocks is empty or all-whitespace, and returns
that decoded text otherwise. -/
theorem descifrar_empty_result (cifrados : List ℕ) (d n : ℕ) (pub : Option (ℕ × ℕ))
    (hn : 0 < n ∨ cifrados = [])
    (hpub : ∀ x, pub = some x → x.2 = n) :
    ((utf8DecodeReplace (joinBytes (cifrados.map fun c => decodeBlock (c ^ d % n)))).all
        isPySpace = true →
      descifrar_mensaje cifrados (d, n) pub = Except.error RSAErr.emptyResult) ∧
    ((utf8DecodeReplace (joinBytes (cifrados.map fun c => decodeBlock (c ^ d % n)))).all
        isPySpace = false →
      descifrar_mensaje cifrados (d, n) pub
        = Except.ok (utf8DecodeReplace (joinBytes
            (cifrados.map fun c => decodeBlock (c ^ d % n))))) := by
  have hred : descifrar_mensaje cifrados (d, n) pub = descifrarCuerpo cifrados d n := by
    cases pub with
    | none => rfl
    | some x =>
      have hx : x.2 = n := hpub x rfl
      show (if n ≠ x.2 then Except.error RSAErr.keyMismatch else descifrarCuerpo cifrados d n)
          = descifrarCuerpo cifrados d n
      rw [if_neg (by omega)]
  have hguard : ¬ (n = 0 ∧ cifrados ≠ []) := by
    rcases hn with h | h
    · rintro ⟨h1, _⟩
      omega
    · rintro ⟨_, h2⟩
      exact h2 h
  have hcuerpo : descifrarCuerpo cifrados d n =
      (if (utf8DecodeReplace (joinBytes (cifrados.map fun c => decodeBlock (c ^ d % n)))).all
          isPySpace
        then Except.error RSAErr.emptyResult
        else Except.ok (utf8DecodeReplace (joinBytes
          (cifrados.map fun c => decodeBlock (c ^ d % n))))) := by
    unfold descifrarCuerpo
    rw [if_neg hguard]
  constructor
  · intro h
    rw [hred, hcuerpo, if_pos h]
  · intro h
    rw [hred, hcuerpo, if_neg (by simp [h])]

/-- Witness for C6 at concrete inputs: a single block decrypting to the
non-whitespace byte `6`. -/
theorem descifrar_empty_result_witness :
    descifrar_mensaje [5] (3, 7) none = Except.ok [6] := by
  have h := (descifrar_empty_result [5] 3 7 none (Or.inl (by omega))
    (fun x hx => by cases hx)).2 (by decide)
  exact h.trans (by decide)

/-- Claim C1 (amended): for a key pair generated from two distinct genuinely
prime accepted candidates, with a modulus of at least 16 bits, decryption
inverts encryption on every valid message whose blocks re-encode losslessly
and which contains at least one non-whitespace character. -/
theorem cifrar_descifrar_roundtrip
    (bits fuel : ℕ) (r1 r2 : ℕ → ℕ) (w1 w2 : ℕ → ℕ → ℕ) (es : ℕ → ℕ)
    (e n d n' p q : ℕ)
    (hgen : generar_claves bits r1 r2 w1 w2 es fuel = some ((e, n), (d, n')))
    (hp : generar_primo (bits / 2) r1 w1 fuel = some p)
    (hq : generar_primo (bits / 2) r2 w2 fuel = some q)
    (hpP : Nat.Prime p) (hqP : Nat.Prime q) (hpq : p ≠ q)
    (hsize : 16 ≤ bitLen n)
    (M : List ℕ) (hM : ∀ c ∈ M, validScalar c)
    (hloss : ∀ bl ∈ chunksExact (utf8EncodeList M).length (bloque_max n).toNat
        (utf8EncodeList M), decodeBlock (bytesToInt bl) = bl)
    (hws : ∃ c ∈ M, isPySpace c = false) :
    ∃ cs, cifrar_mensaje M (e, n) = Except.ok cs ∧
      descifrar_mensaje cs (d, n') (some (e, n)) = Except.ok M := by
  obtain ⟨p', q', hgp', hgq', _, _, hn, hn', hgcd, hdeq, hinv, _⟩ :=
    generar_claves_spec bits fuel r1 r2 w1 w2 es e n d n' hgen
  rw [hp] at hgp'
  rw [hq] at hgq'
  have hpp' : p = p' := Option.some.inj hgp'
  have hqq' : q = q' := Option.some.inj hgq'
  subst hpp' hqq'
  rw [hn']
  have hnpos : 0 < n := by
    by_contra h0
    have hz : n = 0 := by omega
    rw [hz, bitLen_zero] at hsize
    omega
  obtain ⟨hLeq, hL1⟩ := bloque_max_toNat n hsize
  have hbpos : bloque_max n = ((bloque_max n).toNat : ℤ) := by
    unfold bloque_max at *
    omega
  have hsplit : splitBloques (utf8EncodeList M) (bloque_max n)
      = some (chunksExact (utf8EncodeList M).length (bloque_max n).toNat
          (utf8EncodeList M)) := by
    unfold splitBloques
    rw [if_neg (by omega : ¬ bloque_max n = 0), if_neg (by omega : ¬ bloque_max n < 0)]
  have hbyteslt : ∀ x ∈ utf8EncodeList M, x < 256 :=
    utf8EncodeList_lt M fun c hc => (hM c hc).1
  have hchlt : ∀ bl ∈ chunksExact (utf8EncodeList M).length (bloque_max n).toNat
      (utf8EncodeList M), bytesToInt bl < n := by
    intro bl hbl
    exact block_value_lt n hsize bl
      (fun x hx => hbyteslt x (chunksExact_mem_subset _ _ _ _ hbl x hx))
      (chunksExact_mem_length _ _ _ _ hbl)
  have henc : cifrar_mensaje M (e, n)
      = Except.ok ((chunksExact (utf8EncodeList M).length (bloque_max n).toNat
          (utf8EncodeList M)).map fun bl => bytesToInt bl ^ e % n) := by
    show (match splitBloques (utf8EncodeList M) (bloque_max n) with
      | none => Except.error RSAErr.rangeError
      | some bloques => cifrarBloques e n bloques) = _
    rw [hsplit]
    exact cifrarBloques_ok e n _ hchlt
  refine ⟨_, henc, ?_⟩
  have hrsa : ∀ bl ∈ chunksExact (utf8EncodeList M).length (bloque_max n).toNat
      (utf8EncodeList M), (bytesToInt bl ^ e % n) ^ d % n = bytesToInt bl := by
    intro bl hbl
    have hlt : bytesToInt bl < p * q := hn ▸ hchlt bl hbl
    have h := rsa_roundtrip hpP hqP hpq hinv (bytesToInt bl) hlt
    rw [← hn] at h
    exact h
  set cs := (chunksExact (utf8EncodeList M).length (bloque_max n).toNat
    (utf8EncodeList M)).map fun bl => bytesToInt bl ^ e % n with hcs
  have hd1 : descifrar_mensaje cs (d, n) (some (e, n)) = descifrarCuerpo cs d n := by
    show (if n ≠ n then Except.error RSAErr.keyMismatch else descifrarCuerpo cs d n)
        = descifrarCuerpo cs d n
    rw [if_neg (by omega)]
  have hmap : cs.map (fun c => decodeBlock (c ^ d % n))
      = chunksExact (utf8EncodeList M).length (bloque_max n).toNat (utf8EncodeList M) := by
    rw [hcs, List.map_map]
    have hcong : ∀ bl ∈ chunksExact (utf8EncodeList M).length (bloque_max n).toNat
        (utf8EncodeList M),
        ((fun c => decodeBlock (c ^ d % n)) ∘ fun bl => bytesToInt bl ^ e % n) bl = id bl := by
      intro bl hbl
      show decodeBlock ((bytesToInt bl ^ e % n) ^ d % n) = bl
      rw [hrsa bl hbl, hloss bl hbl]
    rw [List.map_congr_left hcong, List.map_id]
  have hjoin : joinBytes (chunksExact (utf8EncodeList M).length (bloque_max n).toNat
      (utf8EncodeList M)) = utf8EncodeList M :=
    chunksExact_join _ _ _ le_rfl hL1
  rw [hd1]
  have hbody : descifrarCuerpo cs d n =
      (if (utf8DecodeReplace (joinBytes (cs.map fun c => decodeBlock (c ^ d % n)))).all isPySpace
        then Except.error RSAErr.emptyResult
        else Except.ok (utf8DecodeReplace (joinBytes
          (cs.map fun c => decodeBlock (c ^ d % n))))) := by
    unfold descifrarCuerpo
    rw [if_neg (by rintro ⟨h1, _⟩; omega)]
  rw [hbody, hmap, hjoin, utf8DecodeReplace_encode M hM]
  rw [if_neg (by simp [allPySpace_false hws])]

/-- Counterexample to claim C1 as literally stated: with a generated 16-bit
key pair, the all-whitespace message consisting of the single space character
(code point 32) satisfies the lossless re-encoding precondition and encrypts
fine, yet decryption fails with `emptyResult` instead of returning it. -/
theorem roundtrip_whitespace_counterexample :
    generar_claves 16 (fun _ => 251) (fun _ => 241) (fun _ _ => 250) (fun _ _ => 240)
        (fun _ => 0) 1 = some ((65537, 60491), (33473, 60491)) ∧
    decodeBlock (bytesToInt [32]) = [32] ∧
    cifrar_mensaje [32] (65537, 60491) = Except.ok [32 ^ 65537 % 60491] ∧
    descifrar_mensaje [32 ^ 65537 % 60491] (33473, 60491) (some (65537, 60491))
      = Except.error RSAErr.emptyResult ∧
    descifrar_mensaje [32 ^ 65537 % 60491] (33473, 60491) (some (65537, 60491))
      ≠ Except.ok [32] :=
  ⟨by decide, by decide, rfl, by decide, by decide⟩

/-- Witness for the amended C1 at a concrete run: the four-character message
"hola" round-trips through the generated 16-bit key pair. -/
theorem cifrar_descifrar_roundtrip_witness :
    ∃ cs, cifrar_mensaje [104, 111, 108, 97] (65537, 60491) = Except.ok cs ∧
      descifrar_mensaje cs (33473, 60491) (some (65537, 60491))
        = Except.ok [104, 111, 108, 97] :=
  cifrar_descifrar_roundtrip 16 1 (fun _ => 251) (fun _ => 241) (fun _ _ => 250)
    (fun _ _ => 240) (fun _ => 0) 65537 60491 33473 60491 251 241
    (by decide) (by decide) (by decide) (by norm_num) (by norm_num) (by omega)
    (by decide) [104, 111, 108, 97] (by decide) (by decide)
    ⟨104, by decide, by decide⟩

end RsaGen
